import Mathlib

/-!
Verification of the viewport-chunked DOM perception pipeline
(`process.ts`: `processElements`, `pickChunk`, `scrollToHeight`,
`storeDOM`/`restoreDOM`, `createTextBoundingBoxes`, and the
classification predicates `isActive`, `isInteractiveElement`,
`isLeafElement`).

The DOM is shallowly embedded: an element carries its tag, attribute
list, computed style, bounding rectangle and children; a text node
carries its character data.  Stateful browser operations become
explicit state passing; fallible operations return `Except`.
-/

set_option maxHeartbeats 1000000

/-! ## Decimal rendering of indices

JavaScript template interpolation `${n}` renders a natural number in
decimal.  `decChars` is that decimal rendering, written with explicit
fuel so that it is structurally recursive. -/

/-- Character for the decimal digit `n < 10`. -/
def digitCh (n : Nat) : Char := Char.ofNat (48 + n)

/-- Fuel-driven decimal rendering: digits of `n`, most significant first. -/
def decCharsGo : Nat → Nat → List Char
  | 0, _ => []
  | fuel + 1, n =>
    if n < 10 then [digitCh n]
    else decCharsGo fuel (n / 10) ++ [digitCh (n % 10)]

/-- Decimal digit list of `n`, as produced by JS `${n}`. -/
def decChars (n : Nat) : List Char := decCharsGo (n + 1) n

/-- Decimal string of `n`. -/
def decStr (n : Nat) : String := (decChars n).asString

/-- A character is a decimal digit. -/
def isDigitCh (c : Char) : Bool := 48 ≤ c.toNat && c.toNat ≤ 57

theorem digitCh_isDigit {n : Nat} (h : n < 10) : isDigitCh (digitCh n) = true := by
  interval_cases n <;> decide

theorem decCharsGo_fuel_irrel :
    ∀ (f₁ f₂ n : Nat), n < f₁ → n < f₂ → decCharsGo f₁ n = decCharsGo f₂ n := by
  intro f₁
  induction f₁ using Nat.strong_induction_on with
  | _ f₁ ih =>
    intro f₂ n h₁ h₂
    match f₁, f₂ with
    | fa + 1, fb + 1 =>
      simp only [decCharsGo]
      split
      · rfl
      · rename_i hn
        have hd : n / 10 < n := Nat.div_lt_self (by omega) (by omega)
        rw [ih fa (by omega) fb (n / 10) (by omega) (by omega)]

theorem decCharsGo_all_digits :
    ∀ (fuel n : Nat), n < fuel → ∀ c ∈ decCharsGo fuel n, isDigitCh c = true := by
  intro fuel
  induction fuel with
  | zero => intro n h; omega
  | succ f ih =>
    intro n h c hc
    simp only [decCharsGo] at hc
    split at hc
    · rename_i hn
      simp only [List.mem_singleton] at hc
      exact hc ▸ digitCh_isDigit hn
    · rename_i hn
      rcases List.mem_append.mp hc with h1 | h1
      · have hd : n / 10 < n := Nat.div_lt_self (by omega) (by omega)
        exact ih (n / 10) (by omega) c h1
      · simp only [List.mem_singleton] at h1
        exact h1 ▸ digitCh_isDigit (Nat.mod_lt _ (by omega))

theorem decChars_all_digits (n : Nat) : ∀ c ∈ decChars n, isDigitCh c = true :=
  decCharsGo_all_digits (n + 1) n (Nat.lt_succ_self n)

theorem decChars_ne_nil (n : Nat) : decChars n ≠ [] := by
  unfold decChars decCharsGo
  split
  · simp
  · simp

/-- Reading a digit list back as a number. -/
def decVal (cs : List Char) : Nat :=
  cs.foldl (fun a c => 10 * a + (c.toNat - 48)) 0

theorem decVal_append (cs : List Char) (c : Char) :
    decVal (cs ++ [c]) = 10 * decVal cs + (c.toNat - 48) := by
  unfold decVal
  rw [List.foldl_append]
  rfl

theorem digitCh_toNat {n : Nat} (h : n < 10) : (digitCh n).toNat = 48 + n := by
  interval_cases n <;> decide

theorem decVal_decCharsGo :
    ∀ (fuel n : Nat), n < fuel → decVal (decCharsGo fuel n) = n := by
  intro fuel
  induction fuel with
  | zero => intro n h; omega
  | succ f ih =>
    intro n h
    simp only [decCharsGo]
    split
    · rename_i hn
      show decVal [digitCh n] = n
      unfold decVal
      simp [List.foldl, digitCh_toNat hn]
    · rename_i hn
      have hd : n / 10 < n := Nat.div_lt_self (by omega) (by omega)
      rw [decVal_append, ih (n / 10) (by omega),
        digitCh_toNat (Nat.mod_lt _ (by omega : (0:Nat) < 10))]
      omega

theorem decVal_decChars (n : Nat) : decVal (decChars n) = n :=
  decVal_decCharsGo (n + 1) n (Nat.lt_succ_self n)

theorem decChars_injective {m n : Nat} (h : decChars m = decChars n) : m = n := by
  have := decVal_decChars m
  rw [h, decVal_decChars n] at this
  omega

/-! ## Newline splitting

`splitNl` models JS `s.split("\n")`: the segments between newline
characters, including the empty segment after a trailing newline. -/

def splitNl : List Char → List (List Char)
  | [] => [[]]
  | c :: cs =>
    if c = '\n' then [] :: splitNl cs
    else
      match splitNl cs with
      | [] => [[c]]
      | l :: ls => (c :: l) :: ls

theorem splitNl_ne_nil (cs : List Char) : splitNl cs ≠ [] := by
  induction cs with
  | nil => simp [splitNl]
  | cons c cs ih =>
    simp only [splitNl]
    split
    · simp
    · match h : splitNl cs with
      | [] => simp
      | l :: ls => simp

theorem splitNl_append_nl (xs rest : List Char) (h : '\n' ∉ xs) :
    splitNl (xs ++ '\n' :: rest) = xs :: splitNl rest := by
  induction xs with
  | nil => simp [splitNl]
  | cons c cs ih =>
    have hc : c ≠ '\n' := by intro hc; exact h (hc ▸ List.mem_cons_self c cs)
    have hcs : '\n' ∉ cs := fun hm => h (List.mem_cons_of_mem c hm)
    simp only [List.cons_append, splitNl, if_neg hc]
    rw [show cs.append ('\n' :: rest) = cs ++ '\n' :: rest from rfl, ih hcs]

theorem splitNl_join_lines (pieces : List (List Char))
    (h : ∀ p ∈ pieces, '\n' ∉ p) :
    splitNl ((pieces.map (· ++ ['\n'])).flatten) = pieces ++ [[]] := by
  induction pieces with
  | nil => simp [splitNl]
  | cons p ps ih =>
    have hp : '\n' ∉ p := h p (List.mem_cons_self p ps)
    have hps : ∀ q ∈ ps, '\n' ∉ q := fun q hq => h q (List.mem_cons_of_mem p hq)
    simp only [List.map_cons, List.flatten_cons, List.append_assoc, List.singleton_append]
    rw [splitNl_append_nl p _ hp, ih hps]
    simp

/-! ## JS string primitives

`String.prototype.trim`, `toLowerCase` and `startsWith`, modelled over
character lists (JS whitespace includes the non-breaking space). -/

/-- The character class of the JS regex `\\s` (also the set trimmed by JS
`trim()`). -/
def jsIsSpace (c : Char) : Bool :=
  c = ' ' || c = '\t' || c = '\n' || c = '\r' || c = '\x0b' || c = '\x0c'
    || c = '\u00A0'

/-- JS `s.trim()`: strip leading and trailing whitespace. -/
def jsTrim (s : String) : String :=
  (((s.data.dropWhile jsIsSpace).reverse.dropWhile jsIsSpace).reverse).asString

/-- ASCII lower-casing of one character. -/
def lowerCh (c : Char) : Char :=
  if 'A' ≤ c && c ≤ 'Z' then Char.ofNat (c.toNat + 32) else c

/-- JS `s.toLowerCase()` (ASCII range, as used on tag names). -/
def jsToLower (s : String) : String := (s.data.map lowerCh).asString

/-- JS `s.startsWith(p)`. -/
def jsStartsWith (s p : String) : Bool := p.data.isPrefixOf s.data

/-- JS `list.join(sep)` on strings. -/
def jsJoinSep (sep : String) : List String → String
  | [] => ""
  | [s] => s
  | s :: rest => s ++ sep ++ jsJoinSep sep rest

/-! ## DOM model for the perception pipeline

Elements carry their markup data plus the layout facts the code reads
from the platform (`getComputedStyle`, `getBoundingClientRect`). -/

/-- Computed style fields read by `processElements`. -/
structure Style where
  display : String
  visibility : String
  opacity : String

/-- Bounding client rectangle fields read by `processElements`. -/
structure Rect where
  width : Int
  height : Int
  top : Int
  bottom : Int

mutual
/-- A DOM node: element (with layout data) or text. -/
inductive DNode where
  | element (tag : String) (attrs : List (String × String)) (style : Style)
      (rect : Rect) (children : DNodeList)
  | text (content : String)
/-- A list of sibling DOM nodes. -/
inductive DNodeList where
  | nil
  | cons (head : DNode) (tail : DNodeList)
end

/-- `element.getAttribute(name)`: value of the first attribute named `name`. -/
def getAttr (attrs : List (String × String)) (name : String) : Option String :=
  (attrs.find? (fun a => a.1 = name)).map (fun a => a.2)

/-- `element.hasAttribute(name)`. -/
def hasAttr (attrs : List (String × String)) (name : String) : Bool :=
  (getAttr attrs name).isSome

mutual
/-- `node.textContent` for an element: concatenated descendant text. -/
def textContentN : DNode → String
  | .element _ _ _ _ children => textContentList children
  | .text s => s
/-- Concatenated text content of a sibling list. -/
def textContentList : DNodeList → String
  | .nil => ""
  | .cons c cs => textContentN c ++ textContentList cs
end

/-- `isTextNode`: a text node whose trimmed content is non-empty
(JS `node.nodeType === Node.TEXT_NODE && Boolean(node.textContent?.trim())`). -/
def isTextNodeB : DNode → Bool
  | .text s => jsTrim s ≠ ""
  | .element _ _ _ _ _ => false

/-- `leafElementDenyList` from the source. -/
def leafElementDenyList : List String := ["SVG", "IFRAME", "SCRIPT", "STYLE", "LINK"]

/-- `interactiveElementTypes` from the source. -/
def interactiveElementTypes : List String :=
  ["A", "BUTTON", "DETAILS", "EMBED", "INPUT", "LABEL", "MENU", "MENUITEM",
   "OBJECT", "SELECT", "TEXTAREA", "SUMMARY"]

/-- `interactiveRoles` from the source. -/
def interactiveRoles : List String :=
  ["button", "menu", "menuitem", "link", "checkbox", "radio", "slider", "tab",
   "tabpanel", "textbox", "combobox", "grid", "listbox", "option", "progressbar",
   "scrollbar", "searchbox", "switch", "tree", "treeitem", "spinbutton", "tooltip"]

/-- `interactiveAriaRoles` from the source. -/
def interactiveAriaRoles : List String := ["menu", "menuitem", "button"]

/-- `isActive(element)`: false when the element carries `disabled`, `hidden`,
or `aria-disabled="true"`. -/
def isActive (attrs : List (String × String)) : Bool :=
  !(hasAttr attrs "disabled" || hasAttr attrs "hidden" ||
    (getAttr attrs "aria-disabled" == some "true"))

/-- JS truthiness-guarded membership: `attrValue && list.includes(attrValue)`. -/
def optRoleIn (roles : List String) : Option String → Bool
  | some r => roles.contains r
  | none => false

/-- `isInteractiveElement(element)`. -/
def isInteractiveElement (tag : String) (attrs : List (String × String)) : Bool :=
  interactiveElementTypes.contains tag
    || optRoleIn interactiveRoles (getAttr attrs "role")
    || optRoleIn interactiveAriaRoles (getAttr attrs "aria-role")

/-- `isLeafElement(element)` on an element's tag and child list. -/
def isLeafElement (tag : String) (children : DNodeList) : Bool :=
  if textContentList children = "" then false
  else
    match children with
    | .nil => !(leafElementDenyList.contains tag)
    | .cons c .nil => isTextNodeB c
    | .cons _ (.cons _ _) => false

/-- The tree-walker filter of `processElements` (line 110-125): an element is
rejected — pruning its whole subtree — when it is hidden, disabled,
ARIA-disabled, or its computed style is `display:none`/`visibility:hidden`. -/
def filterReject (attrs : List (String × String)) (style : Style) : Bool :=
  hasAttr attrs "hidden" || hasAttr attrs "disabled" ||
    (getAttr attrs "aria-disabled" == some "true") ||
    style.display == "none" || style.visibility == "hidden"

/-- The in-loop style skip (lines 152-158): `display:none`,
`visibility:hidden` or `opacity:0` makes the walker `continue`. -/
def styleSkip (style : Style) : Bool :=
  style.display == "none" || style.visibility == "hidden" || style.opacity == "0"

/-- The geometric visibility test (lines 163-168) against
`window.innerHeight`. -/
def rectVisible (innerHeight : Int) (r : Rect) : Bool :=
  decide (0 < r.width) && decide (0 < r.height) &&
    decide (-r.height ≤ r.top) && decide (r.bottom ≤ innerHeight + r.height)

/-- Whether a visited element is pushed onto `candidateElements`
(lines 141-176). -/
def elemCandidate (innerHeight : Int) (tag : String) (attrs : List (String × String))
    (style : Style) (rect : Rect) (children : DNodeList) : Bool :=
  !styleSkip style && rectVisible innerHeight rect && isActive attrs &&
    (isInteractiveElement tag attrs || isLeafElement tag children)

mutual
/-- Candidate collection of the `treeWalker` loop for the subtree rooted at a
node whose parent element has style `pstyle` and rectangle `prect`.
A filter-rejected element contributes nothing (subtree pruned); an accepted
element is pushed when `elemCandidate` holds and its children are walked with
itself as parent; a text node is pushed when its trimmed content is non-empty
and its parent element passes the style and rectangle checks (lines 177-205). -/
def collectCandidates (innerHeight : Int) (pstyle : Style) (prect : Rect) :
    DNode → List DNode
  | .text s =>
    if decide (jsTrim s ≠ "") && !styleSkip pstyle && rectVisible innerHeight prect
    then [.text s] else []
  | .element tag attrs style rect children =>
    if filterReject attrs style then []
    else
      (if elemCandidate innerHeight tag attrs style rect children
       then [.element tag attrs style rect children] else [])
        ++ collectList innerHeight style rect children
/-- Candidate collection over a sibling list. -/
def collectList (innerHeight : Int) (pstyle : Style) (prect : Rect) :
    DNodeList → List DNode
  | .nil => []
  | .cons c cs =>
    collectCandidates innerHeight pstyle prect c ++ collectList innerHeight pstyle prect cs
end

/-- `candidateElements` of one `processElements` pass: the walk starts below
`document.body`, so the body's children are walked with the body as parent. -/
def candidates (innerHeight : Int) (body : DNode) : List DNode :=
  match body with
  | .element _ _ style rect children => collectList innerHeight style rect children
  | .text _ => []

/-! ## Output assembler -/

/-- `essentialAttributes` allow-list from `collectEssentialAttributes`. -/
def essentialAttributes : List String :=
  ["id", "class", "href", "src", "aria-label", "aria-name", "aria-role",
   "aria-description", "aria-expanded", "aria-haspopup", "type", "value"]

/-- `collectEssentialAttributes(element)`: allow-listed attributes with truthy
values, then every `data-` attribute in declaration order, space-joined as
`name="value"` pairs. -/
def collectEssentialAttributes (attrs : List (String × String)) : String :=
  let fromAllowList := essentialAttributes.filterMap (fun name =>
    match getAttr attrs name with
    | some v => if v ≠ "" then some (name ++ "=\"" ++ v ++ "\"") else none
    | none => none)
  let dataAttrs := attrs.filterMap (fun a =>
    if jsStartsWith a.1 "data-" then some (a.1 ++ "=\"" ++ a.2 ++ "\"") else none)
  jsJoinSep " " (fromAllowList ++ dataAttrs)

/-- The part of a candidate's output line after the `index:` prefix:
the trimmed text for a text node, the `<tag attrs>text</tag>` rendering
for an element (lines 245-259). -/
def renderContent : DNode → String
  | .text s => jsTrim s
  | .element tag attrs _ _ children =>
    let tagName := jsToLower tag
    let attributes := collectEssentialAttributes attrs
    "<" ++ tagName ++ (if attributes ≠ "" then " " ++ attributes else "") ++ ">"
      ++ jsTrim (textContentList children) ++ "</" ++ tagName ++ ">"

/-- `outputParts[index]` for the candidate at actual index `i`: text nodes
are only rendered when their trimmed content is non-empty (the slot is left
as the empty string otherwise, mirroring the untouched array hole). -/
def renderLine (i : Nat) (c : DNode) : String :=
  match c with
  | .text s => if jsTrim s = "" then "" else decStr i ++ ":" ++ renderContent (.text s) ++ "\n"
  | .element tag attrs style rect children =>
    decStr i ++ ":" ++ renderContent (.element tag attrs style rect children) ++ "\n"

/-- The output lines for the candidates, in traversal order, starting at
array position `i` with index offset `off` (`actualIndex = index + indexOffset`). -/
def renderLinesFrom (off : Nat) : Nat → List DNode → List String
  | _, [] => []
  | i, c :: cs => renderLine (i + off) c :: renderLinesFrom off (i + 1) cs

/-- The `selectorMap` entries `actualIndex ↦ xpaths`, in assignment order.
`gen` is the locator generator (`generateXPathsForElement`, an external
collaborator per the spec), assumed deterministic so that the module-level
xpath cache is semantically transparent. -/
def selectorMapFrom (gen : DNode → List String) (off : Nat) :
    Nat → List DNode → List (Nat × List String)
  | _, [] => []
  | i, c :: cs => (i + off, gen c) :: selectorMapFrom gen off (i + 1) cs

/-- The pure core of `processElements`: candidate discovery over the body,
then output assembly.  Returns `(outputString, selectorMap)`. -/
def processElementsCore (gen : DNode → List String) (innerHeight : Int)
    (body : DNode) (indexOffset : Nat) : String × List (Nat × List String) :=
  let cands := candidates innerHeight body
  (String.join (renderLinesFrom indexOffset 0 cands),
   selectorMapFrom gen indexOffset 0 cands)

/-! ## Viewport chunk scheduler -/

/-- `Math.ceil(documentHeight / viewportHeight)`: the total chunk count. -/
def totalChunks (viewportHeight documentHeight : Nat) : Nat :=
  (documentHeight + viewportHeight - 1) / viewportHeight

/-- `Math.abs(a - b)` on scroll offsets. -/
def jsAbsSub (a b : Nat) : Nat := ((a : Int) - (b : Int)).natAbs

/-- The `reduce` step of `pickChunk`: keep the chunk whose top offset is
strictly closer to the current scroll position. -/
def closerChunk (viewportHeight scrollY : Nat) (closest current : Nat) : Nat :=
  if jsAbsSub scrollY (viewportHeight * current) <
      jsAbsSub scrollY (viewportHeight * closest)
  then current else closest

/-- `pickChunk(chunksSeen)` with the platform inputs made explicit:
builds `0 .. chunks-1`, filters out the seen ones, reduces to the unseen
chunk nearest the scroll position (initial accumulator `chunksRemaining[0]`),
and throws when no chunk remains. -/
def pickChunk (viewportHeight documentHeight scrollY : Nat)
    (chunksSeen : List Nat) : Except String (Nat × List Nat) :=
  let chunks := totalChunks viewportHeight documentHeight
  let chunksArray := List.range chunks
  let chunksRemaining := chunksArray.filter (fun c => !(chunksSeen.contains c))
  match chunksRemaining with
  | [] => .error "No chunks remaining to check: "
  | c0 :: rest =>
    .ok ((c0 :: rest).foldl (closerChunk viewportHeight scrollY) c0, chunksArray)

/-! ## Scrolling -/

/-- The platform scroll inputs read by the scheduler. -/
structure ScrollState where
  documentHeight : Nat
  innerHeight : Nat
  scrollY : Nat

/-- Model of the platform primitive `window.scrollTo({top})`: the browser
clamps the requested offset to the scrollable range
`[0, scrollHeight - innerHeight]`. -/
def windowScrollTo (top : Nat) (st : ScrollState) : ScrollState :=
  { st with scrollY := min top (st.documentHeight - st.innerHeight) }

/-- Modelled from the spec: `calculateViewportHeight` (imported from
`./utils`, which is not under `src/`) — the viewport height used for
chunking; the spec identifies it with the window's viewport height
(chunks are "viewport-height vertical slices" and the scroll bottom is
`documentHeight - viewportHeight`). -/
def calculateViewportHeight (st : ScrollState) : Nat := st.innerHeight

/-- `scrollToHeight(height)`: issues `window.scrollTo({top: height})` and
awaits scroll settlement (the wait changes no scroll state). -/
def scrollToHeight (height : Nat) (st : ScrollState) : ScrollState :=
  windowScrollTo height st

/-- The scroll target computed by `processElements` (lines 93-96):
`min(viewportHeight * chunk, documentHeight - viewportHeight)`. -/
def processElementsScrollTarget (st : ScrollState) (chunk : Nat) : Nat :=
  min (calculateViewportHeight st * chunk)
    (st.documentHeight - calculateViewportHeight st)

/-! ## DOM snapshot subsystem (`storeDOM` / `restoreDOM`)

`storeDOM` serializes a deep clone of the body (`cloneNode(true).outerHTML`);
`restoreDOM` assigns the stored string to `document.body.innerHTML`, which the
platform parses as an HTML fragment in body context.  Markup trees (`HNode`)
carry only what serialization sees; `serTextC`/`parseNodesGo` model the
platform serializer and fragment parser. -/

mutual
/-- A markup node as seen by `outerHTML`/`innerHTML`. -/
inductive HNode where
  | elem (tag : String) (attrs : List (String × String)) (children : HList)
  | txt (content : String)
/-- A list of sibling markup nodes. -/
inductive HList where
  | nil
  | cons (head : HNode) (tail : HList)
end

mutual
/-- Deep clone (`cloneNode(true)`) of a markup node. -/
def cloneN : HNode → HNode
  | .txt s => .txt s
  | .elem tag attrs children => .elem tag attrs (cloneL children)
/-- Deep clone of a sibling list. -/
def cloneL : HList → HList
  | .nil => .nil
  | .cons c cs => .cons (cloneN c) (cloneL cs)
end

/-- Escaping of text data by the platform HTML serializer. -/
def escTextC : List Char → List Char
  | [] => []
  | c :: cs =>
    if c = '&' then '&' :: 'a' :: 'm' :: 'p' :: ';' :: escTextC cs
    else if c = '<' then '&' :: 'l' :: 't' :: ';' :: escTextC cs
    else if c = '>' then '&' :: 'g' :: 't' :: ';' :: escTextC cs
    else c :: escTextC cs

/-- Escaping of attribute values by the platform HTML serializer. -/
def escAttrC : List Char → List Char
  | [] => []
  | c :: cs =>
    if c = '&' then '&' :: 'a' :: 'm' :: 'p' :: ';' :: escAttrC cs
    else if c = '"' then '&' :: 'q' :: 'u' :: 'o' :: 't' :: ';' :: escAttrC cs
    else c :: escAttrC cs

/-- Entity decoding by the platform HTML parser. -/
def unescC : List Char → List Char
  | [] => []
  | '&' :: 'a' :: 'm' :: 'p' :: ';' :: cs => '&' :: unescC cs
  | '&' :: 'l' :: 't' :: ';' :: cs => '<' :: unescC cs
  | '&' :: 'g' :: 't' :: ';' :: cs => '>' :: unescC cs
  | '&' :: 'q' :: 'u' :: 'o' :: 't' :: ';' :: cs => '"' :: unescC cs
  | c :: cs => c :: unescC cs

/-- Serialization of an attribute list: ` name="value"` pairs. -/
def serAttrs : List (String × String) → List Char
  | [] => []
  | (n, v) :: rest =>
    ' ' :: n.data ++ '=' :: '"' :: escAttrC v.data ++ '"' :: serAttrs rest

mutual
/-- Platform HTML serialization of a markup node. -/
def serNode : HNode → List Char
  | .txt s => escTextC s.data
  | .elem tag attrs children =>
    '<' :: tag.data ++ serAttrs attrs ++ '>' :: serList children
      ++ '<' :: '/' :: tag.data ++ ['>']
/-- Platform HTML serialization of a sibling list. -/
def serList : HList → List Char
  | .nil => []
  | .cons c cs => serNode c ++ serList cs
end

/-- Characters allowed in a (lower-cased) tag or attribute name. -/
def isTagChar (c : Char) : Bool :=
  ('a' ≤ c && c ≤ 'z') || ('0' ≤ c && c ≤ '9') || c = '-'

/-- Attribute parsing of the platform fragment parser: repeatedly consume
` name="value"` pairs until the `>` that ends the tag. -/
def readAttrsGo : Nat → List Char → List (String × String) × List Char
  | 0, s => ([], s)
  | _ + 1, [] => ([], [])
  | fuel + 1, c :: cs =>
    if c = ' ' then
      let name := cs.takeWhile isTagChar
      let r1 := cs.dropWhile isTagChar
      match r1 with
      | '=' :: '"' :: r2 =>
        let v := r2.takeWhile (fun x => !(x = '"'))
        let r3 := r2.dropWhile (fun x => !(x = '"'))
        (match r3 with
         | '"' :: r4 =>
           let res := readAttrsGo fuel r4
           ((name.asString, (unescC v).asString) :: res.1, res.2)
         | _ => ([], r3))
      | _ => ([], c :: cs)
    else ([], c :: cs)

/-- Skip a closing tag `</name>`. -/
def dropCloseTag (cs : List Char) : List Char :=
  match cs with
  | '<' :: '/' :: r =>
    (match r.dropWhile isTagChar with
     | '>' :: r2 => r2
     | _ => cs)
  | _ => cs

/-- The platform fragment parser: builds sibling nodes until an end tag or
the end of input.  An end tag for the current element is consumed by the
caller; fuel decreases on every recursive descent. -/
def parseNodesGo : Nat → List Char → HList × List Char
  | 0, s => (.nil, s)
  | _ + 1, [] => (.nil, [])
  | fuel + 1, c :: cs =>
    if c = '<' then
      if cs.head? = some '/' then (.nil, c :: cs)
      else
        let tag := (cs.takeWhile isTagChar).asString
        let r1 := cs.dropWhile isTagChar
        let ares := readAttrsGo r1.length r1
        match ares.2 with
        | '>' :: r3 =>
          let cres := parseNodesGo fuel r3
          let r5 := dropCloseTag cres.2
          let sres := parseNodesGo fuel r5
          (.cons (.elem tag ares.1 cres.1) sres.1, sres.2)
        | _ => (.nil, ares.2)
    else
      let t := (c :: cs).takeWhile (fun x => !(x = '<'))
      let r := (c :: cs).dropWhile (fun x => !(x = '<'))
      let sres := parseNodesGo fuel r
      (.cons (.txt (unescC t).asString) sres.1, sres.2)

/-- Model of the platform: parsing a string assigned to
`document.body.innerHTML`.  HTML fragment parsing in body context ignores a
`<body ...>` wrapper token and its matching end tag, so a leading `<body`
tag is skipped and the top-level parse stops at the trailing `</body>`. -/
def parseFragment (s : String) : HList :=
  let cs := s.data
  let inner :=
    match cs with
    | '<' :: rest =>
      if (rest.takeWhile isTagChar).asString = "body" then
        let r1 := rest.dropWhile isTagChar
        let ares := readAttrsGo r1.length r1
        (match ares.2 with
         | '>' :: r3 => r3
         | _ => cs)
      else cs
    | _ => cs
  (parseNodesGo inner.length inner).1

/-- The page state acted on by the snapshot pair and the locator cache.
Node identities (cache keys) are modelled as numbers. -/
structure PageState where
  bodyAttrs : List (String × String)
  bodyChildren : HList
  xpathCache : List (Nat × List String)

/-- `storeDOM()` together with its effect on the page state: it reads
`document.body.cloneNode(true).outerHTML` and changes nothing. -/
def storeDOMRun (st : PageState) : String × PageState :=
  ((serNode (cloneN (.elem "body" st.bodyAttrs st.bodyChildren))).asString, st)

/-- The snapshot string returned by `storeDOM()`. -/
def storeDOM (st : PageState) : String := (storeDOMRun st).1

/-- `restoreDOM(storedDOM)`: when the stored string is truthy (non-empty),
assigns it to `document.body.innerHTML` (replacing the body's children);
otherwise logs an error and leaves the document untouched. -/
def restoreDOM (storedDOM : String) (st : PageState) : PageState :=
  if storedDOM ≠ "" then { st with bodyChildren := parseFragment storedDOM }
  else st

/-! ## Text annotation (`createTextBoundingBoxes`) -/

/-- A marker span inserted by `createTextBoundingBoxes`. -/
structure MarkerSpan where
  textContent : String
  className : String

/-- `textContent.replace(/\u00A0/g, " ")`: non-breaking spaces become
ordinary spaces. -/
def replaceNbsp (s : String) : String :=
  (s.data.map (fun c => if c = '\u00A0' then ' ' else c)).asString

/-- `textContent.split(/(\s+)/g)`: alternating non-whitespace and
whitespace segments, keeping the captured separators (and the possibly
empty leading/trailing non-separator pieces). -/
def jsSplitWsGo : Nat → List Char → List (List Char)
  | 0, cs => [cs]
  | fuel + 1, cs =>
    let word := cs.takeWhile (fun c => !jsIsSpace c)
    let rest := cs.dropWhile (fun c => !jsIsSpace c)
    match rest with
    | [] => [word]
    | _ :: _ =>
      let sp := rest.takeWhile jsIsSpace
      let rest2 := rest.dropWhile jsIsSpace
      word :: sp :: jsSplitWsGo fuel rest2

/-- `String.split(/(\s+)/g)` on a string. -/
def jsSplitWs (s : String) : List String :=
  (jsSplitWsGo s.data.length s.data).map List.asString

/-- The marker spans `createTextBoundingBoxes` builds for one text node
(lines 366-385): replace non-breaking spaces, split into tokens keeping
whitespace runs, and wrap each token in a span classed by whether its
trimmed content is empty. -/
def annotateTextNode (s : String) : List MarkerSpan :=
  let textContent := replaceNbsp s
  let tokens := jsSplitWs textContent
  tokens.map (fun token =>
    { textContent := token
      className := if jsTrim token = "" then "stagehand-space"
                   else "stagehand-highlighted-word" })

/-! ## Shared fixtures -/

/-- A visible computed style. -/
def sampleStyle : Style := { display := "block", visibility := "visible", opacity := "1" }

/-- A rectangle inside the viewport band for `innerHeight = 100`. -/
def sampleRect : Rect := { width := 10, height := 10, top := 0, bottom := 10 }

/-! ## Basic helper lemmas -/

theorem data_asString (l : List Char) : (List.asString l).data = l := rfl

theorem asString_data (s : String) : s.data.asString = s := rfl

theorem string_data_append (a b : String) : (a ++ b).data = a.data ++ b.data := rfl

theorem foldl_str_append_data (l : List String) :
    ∀ acc : String, (l.foldl (· ++ ·) acc).data = acc.data ++ (l.map String.data).flatten := by
  induction l with
  | nil => intro acc; simp
  | cons s rest ih =>
    intro acc
    simp only [List.foldl_cons, List.map_cons, List.flatten_cons]
    rw [ih, string_data_append, List.append_assoc]

theorem string_join_data (l : List String) :
    (String.join l).data = (l.map String.data).flatten := by
  show (l.foldl (· ++ ·) "").data = _
  rw [foldl_str_append_data]
  rfl

mutual
theorem cloneN_eq : ∀ (n : HNode), cloneN n = n
  | .txt _ => rfl
  | .elem t a cs => by rw [cloneN, cloneL_eq]
theorem cloneL_eq : ∀ (l : HList), cloneL l = l
  | .nil => rfl
  | .cons c cs => by rw [cloneL, cloneN_eq, cloneL_eq]
end

/-! ## Claim theorems: scrolling (C4) -/

/-- C4: for every requested height `h`, `scrollToHeight` scrolls the window
to `min(h, documentHeight - viewportHeight)` and hence never past the bottom
of the document, regardless of the caller. -/
theorem c4_scrollToHeight_clamps (st : ScrollState) (h : Nat) :
    (scrollToHeight h st).scrollY
        = min h (st.documentHeight - calculateViewportHeight st) ∧
      (scrollToHeight h st).scrollY
        ≤ st.documentHeight - calculateViewportHeight st :=
  ⟨rfl, Nat.min_le_right _ _⟩

/-! ## Claim theorems: locator cache on restore (C6) -/

/-- Page state with one cached locator entry, keyed by node identity 5. -/
def c6State : PageState :=
  { bodyAttrs := []
    bodyChildren := .cons (.txt "old content") .nil
    xpathCache := [(5, ["/html/body[1]/div[1]"])] }

/-- C6 counterexample: after `restoreDOM(storeDOM())` the xpath cache entry
keyed by the pre-replacement node identity 5 is still present — the cache is
not cleared when the document is restored, contradicting the claim. -/
theorem c6_counterexample :
    (restoreDOM (storeDOM c6State) c6State).xpathCache
        = [(5, ["/html/body[1]/div[1]"])] ∧
      [(5, ["/html/body[1]/div[1]"])] ≠ ([] : List (Nat × List String)) := by
  constructor
  · unfold restoreDOM
    split <;> rfl
  · simp

/-- C6 amended: `restoreDOM` never touches the module-level xpath cache;
every entry keyed by a pre-replacement node identity remains in the cache
afterwards (stale entries are simply never looked up again). -/
theorem c6_cache_preserved (storedDOM : String) (st : PageState) :
    (restoreDOM storedDOM st).xpathCache = st.xpathCache := by
  unfold restoreDOM
  split <;> rfl

/-! ## Claim theorems: storeDOM is a pure read (C9) -/

/-- C9: `storeDOM` has no effect on the document: it serializes a deep clone
of the body, returns that clone's serialization, and leaves the page state
(body subtree included) unchanged. -/
theorem c9_storeDOM_pure (st : PageState) :
    (storeDOMRun st).2 = st ∧
      (storeDOMRun st).1
        = (serNode (.elem "body" st.bodyAttrs st.bodyChildren)).asString := by
  refine ⟨rfl, ?_⟩
  unfold storeDOMRun
  rw [cloneN_eq]


/-! ## Claim theorems: leaf classification (C8) -/

/-- The leaf classification as the claim states it, read as an ordered case
analysis (first matching clause wins): false on empty text content; for a
childless element, true unless the tag is deny-listed; for an element whose
single child is a text node with non-empty trimmed content, true; false in
every other case. -/
def leafClaim (tag : String) (children : DNodeList) : Bool :=
  if textContentList children = "" then false
  else
    match children with
    | .nil => !(leafElementDenyList.contains tag)
    | .cons (.text s) .nil => decide (jsTrim s ≠ "")
    | .cons (.element ..) .nil => false
    | .cons _ (.cons _ _) => false

/-- The two-span `<div>` child list of the claim's second example. -/
def divABChildren : DNodeList :=
  .cons (.element "SPAN" [] sampleStyle sampleRect (.cons (.text "A") .nil))
    (.cons (.element "SPAN" [] sampleStyle sampleRect (.cons (.text "B") .nil)) .nil)

/-- C8: `isLeafElement` agrees everywhere with the claim's case analysis;
in particular `<span>Hello</span>` is a leaf and
`<div><span>A</span><span>B</span></div>` is not. -/
theorem c8_leaf_classification :
    (∀ (tag : String) (children : DNodeList),
        isLeafElement tag children = leafClaim tag children) ∧
      isLeafElement "SPAN" (.cons (.text "Hello") .nil) = true ∧
      isLeafElement "DIV" divABChildren = false := by
  refine ⟨?_, by decide, by decide⟩
  intro tag children
  by_cases h : textContentList children = ""
  · simp [isLeafElement, leafClaim, h]
  · simp only [isLeafElement, leafClaim, if_neg h]
    match children with
    | .nil => rfl
    | .cons (.text s) .nil => rfl
    | .cons (.element ..) .nil => rfl
    | .cons (.text _) (.cons _ _) => rfl
    | .cons (.element ..) (.cons _ _) => rfl

/-! ## Claim theorems: annotation preserves text (C10) -/

theorem jsSplitWsGo_flatten : ∀ (fuel : Nat) (cs : List Char),
    (jsSplitWsGo fuel cs).flatten = cs := by
  intro fuel
  induction fuel with
  | zero => intro cs; simp [jsSplitWsGo]
  | succ f ih =>
    intro cs
    simp only [jsSplitWsGo]
    match hrest : cs.dropWhile (fun c => !jsIsSpace c) with
    | [] =>
      simp only [List.flatten, List.append_nil]
      conv_rhs =>
        rw [← List.takeWhile_append_dropWhile (p := fun c => !jsIsSpace c) (l := cs)]
      rw [hrest, List.append_nil]
    | r :: rs =>
      simp only [List.flatten_cons, ih]
      rw [List.takeWhile_append_dropWhile, ← hrest, List.takeWhile_append_dropWhile]

theorem string_join_map_asString (l : List (List Char)) :
    String.join (l.map List.asString) = l.flatten.asString := by
  apply String.ext
  rw [string_join_data, List.map_map, data_asString]
  have : (String.data ∘ List.asString) = id := by
    funext x
    simp [data_asString]
  rw [this, List.map_id]

/-- C10: for every text node `createTextBoundingBoxes` wraps, the
concatenated text content of the inserted marker spans, in order, equals
the original text with every non-breaking space replaced by an ordinary
space — the whitespace-run tokenization partitions the string, so no
character is lost or reordered by annotation. -/
theorem c10_annotation_preserves_text (s : String) :
    String.join ((annotateTextNode s).map MarkerSpan.textContent)
      = replaceNbsp s := by
  unfold annotateTextNode jsSplitWs
  rw [List.map_map, List.map_map]
  show String.join ((jsSplitWsGo (replaceNbsp s).data.length (replaceNbsp s).data).map
    fun x => List.asString x) = replaceNbsp s
  rw [show (fun x => List.asString x) = List.asString from rfl,
    string_join_map_asString, jsSplitWsGo_flatten, asString_data]

/-! ## Claim theorems: subtree pruning (C2) -/

/-- C2: an element carrying a `hidden` attribute, a `disabled` attribute, or
`aria-disabled="true"` contributes neither itself nor any descendant to the
candidate list: the tree-walker filter rejects it, pruning the whole subtree,
whatever the children are. -/
theorem c2_pruning (innerHeight : Int) (pstyle : Style) (prect : Rect)
    (tag : String) (attrs : List (String × String)) (style : Style) (rect : Rect)
    (children : DNodeList)
    (h : hasAttr attrs "hidden" = true ∨ hasAttr attrs "disabled" = true ∨
      getAttr attrs "aria-disabled" = some "true") :
    collectCandidates innerHeight pstyle prect
      (.element tag attrs style rect children) = [] := by
  have hrej : filterReject attrs style = true := by
    unfold filterReject
    rcases h with h | h | h <;> simp [h]
  unfold collectCandidates
  simp [hrej]

/-- A hidden container whose descendant `<a href>` would qualify as
interactive on its own. -/
def c2HiddenElem : DNode :=
  .element "DIV" [("hidden", "")] sampleStyle sampleRect
    (.cons (.element "A" [("href", "/x")] sampleStyle sampleRect
      (.cons (.text "Link") .nil)) .nil)

theorem c2_witness :
    (hasAttr [("hidden", "")] "hidden" = true ∨
      hasAttr [("hidden", "")] "disabled" = true ∨
      getAttr [("hidden", "")] "aria-disabled" = some "true") ∧
      collectCandidates 100 sampleStyle sampleRect c2HiddenElem = [] :=
  ⟨Or.inl (by decide),
    c2_pruning 100 sampleStyle sampleRect "DIV" [("hidden", "")] sampleStyle
      sampleRect _ (Or.inl (by decide))⟩

/-! ## Claim theorems: chunk exhaustion (C7) -/

theorem pickChunk_remaining_nil (V H scroll : Nat) (seen : List Nat)
    (h : (List.range (totalChunks V H)).filter (fun c => !(seen.contains c)) = []) :
    pickChunk V H scroll seen = .error "No chunks remaining to check: " := by
  unfold pickChunk
  simp only [h]

theorem pickChunk_remaining_cons (V H scroll : Nat) (seen : List Nat)
    (c0 : Nat) (rest : List Nat)
    (h : (List.range (totalChunks V H)).filter (fun c => !(seen.contains c))
      = c0 :: rest) :
    pickChunk V H scroll seen
      = .ok ((c0 :: rest).foldl (closerChunk V scroll) c0,
          List.range (totalChunks V H)) := by
  unfold pickChunk
  simp only [h]

/-- C7: `pickChunk` fails with the descriptive exhaustion error exactly when
every chunk index below the total chunk count is already in `chunksSeen`;
when at least one unseen chunk remains it returns normally. -/
theorem c7_pickChunk_exhaustion (V H scroll : Nat) (seen : List Nat)
    (hV : 0 < V) :
    (pickChunk V H scroll seen = .error "No chunks remaining to check: " ↔
      ∀ c < totalChunks V H, seen.contains c = true) ∧
    ((∃ c, c < totalChunks V H ∧ seen.contains c = false) →
      ∃ p, pickChunk V H scroll seen = .ok p) := by
  have hiff : (List.range (totalChunks V H)).filter (fun c => !(seen.contains c)) = []
      ↔ ∀ c < totalChunks V H, seen.contains c = true := by
    rw [List.filter_eq_nil_iff]
    constructor
    · intro hall c hc
      have := hall c (List.mem_range.mpr hc)
      simpa using this
    · intro hall c hc
      have := hall c (List.mem_range.mp hc)
      simpa using this
  constructor
  · constructor
    · intro herr
      apply hiff.mp
      match hrem : (List.range (totalChunks V H)).filter (fun c => !(seen.contains c)) with
      | [] => rfl
      | c0 :: rest =>
        rw [pickChunk_remaining_cons V H scroll seen c0 rest hrem] at herr
        exact absurd herr (by simp)
    · intro hall
      exact pickChunk_remaining_nil V H scroll seen (hiff.mpr hall)
  · intro ⟨c, hc, hcs⟩
    match hrem : (List.range (totalChunks V H)).filter (fun c => !(seen.contains c)) with
    | [] =>
      exfalso
      have := hiff.mp hrem c hc
      rw [this] at hcs
      exact absurd hcs (by simp)
    | c0 :: rest =>
      exact ⟨_, pickChunk_remaining_cons V H scroll seen c0 rest hrem⟩

theorem c7_witness :
    pickChunk 1000 3000 0 [0, 1, 2] = .error "No chunks remaining to check: " ∧
      ∃ p, pickChunk 1000 3000 0 [0] = .ok p :=
  ⟨(c7_pickChunk_exhaustion 1000 3000 0 [0, 1, 2] (by decide)).1.mpr (by decide),
    (c7_pickChunk_exhaustion 1000 3000 0 [0] (by decide)).2
      ⟨1, by decide, by decide⟩⟩

/-! ## Claim theorems: nearest-chunk selection (C3) -/

theorem foldl_closerChunk_spec (V scroll : Nat) :
    ∀ (l : List Nat) (a : Nat), (∀ x ∈ l, a < x) → l.Pairwise (· < ·) →
      (l.foldl (closerChunk V scroll) a = a ∨ l.foldl (closerChunk V scroll) a ∈ l) ∧
      jsAbsSub scroll (V * l.foldl (closerChunk V scroll) a)
          ≤ jsAbsSub scroll (V * a) ∧
      (∀ x ∈ l, jsAbsSub scroll (V * l.foldl (closerChunk V scroll) a)
          ≤ jsAbsSub scroll (V * x)) ∧
      (∀ x, (x = a ∨ x ∈ l) →
        jsAbsSub scroll (V * l.foldl (closerChunk V scroll) a)
            = jsAbsSub scroll (V * x) →
        l.foldl (closerChunk V scroll) a ≤ x) := by
  intro l
  induction l with
  | nil =>
    intro a _ _
    refine ⟨Or.inl rfl, Nat.le_refl _, by simp, ?_⟩
    intro x hx _
    rcases hx with rfl | hx
    · exact Nat.le_refl _
    · simp at hx
  | cons c cs ih =>
    intro a hlt hpw
    have hac : a < c := hlt c (List.mem_cons_self c cs)
    have hacs : ∀ x ∈ cs, a < x := fun x hx => hlt x (List.mem_cons_of_mem c hx)
    have hccs : ∀ x ∈ cs, c < x := (List.pairwise_cons.mp hpw).1
    have hpw' : cs.Pairwise (· < ·) := (List.pairwise_cons.mp hpw).2
    rw [List.foldl_cons]
    by_cases hstep : jsAbsSub scroll (V * c) < jsAbsSub scroll (V * a)
    · -- the accumulator becomes c
      have hcc : closerChunk V scroll a c = c := by
        unfold closerChunk; rw [if_pos hstep]
      rw [hcc]
      obtain ⟨hmem, hle, hall, htie⟩ := ih c hccs hpw'
      set r := cs.foldl (closerChunk V scroll) c with hr
      have hra : jsAbsSub scroll (V * r) < jsAbsSub scroll (V * a) :=
        Nat.lt_of_le_of_lt hle hstep
      refine ⟨?_, Nat.le_of_lt hra, ?_, ?_⟩
      · rcases hmem with h | h
        · exact Or.inr (h ▸ List.mem_cons_self c cs)
        · exact Or.inr (List.mem_cons_of_mem c h)
      · intro x hx
        rcases List.mem_cons.mp hx with rfl | hx
        · exact hle
        · exact hall x hx
      · intro x hx heq
        rcases hx with rfl | hx
        · exact absurd heq (Nat.ne_of_lt hra)
        · rcases List.mem_cons.mp hx with rfl | hx
          · exact htie x (Or.inl rfl) heq
          · exact htie x (Or.inr hx) heq
    · -- the accumulator stays a
      have hca : closerChunk V scroll a c = a := by
        unfold closerChunk; rw [if_neg hstep]
      rw [hca]
      obtain ⟨hmem, hle, hall, htie⟩ := ih a hacs hpw'
      set r := cs.foldl (closerChunk V scroll) a with hr
      refine ⟨?_, hle, ?_, ?_⟩
      · rcases hmem with h | h
        · exact Or.inl h
        · exact Or.inr (List.mem_cons_of_mem c h)
      · intro x hx
        rcases List.mem_cons.mp hx with rfl | hx
        · exact Nat.le_trans hle (Nat.le_of_not_lt hstep)
        · exact hall x hx
      · intro x hx heq
        rcases hx with rfl | hx
        · exact htie x (Or.inl rfl) heq
        · rcases List.mem_cons.mp hx with rfl | hx
          · -- tie with the newly skipped head c
            rcases hmem with hra | hrcs
            · exact hra ▸ Nat.le_of_lt hac
            · -- r ∈ cs would force r ≤ a < r, impossible
              have h1 : jsAbsSub scroll (V * r) ≤ jsAbsSub scroll (V * a) := hle
              have h2 : jsAbsSub scroll (V * a) ≤ jsAbsSub scroll (V * x) :=
                Nat.le_of_not_lt hstep
              have hax : jsAbsSub scroll (V * r) = jsAbsSub scroll (V * a) := by
                omega
              have := htie a (Or.inl rfl) hax
              have := hacs r hrcs
              omega
          · exact htie x (Or.inr hx) heq

/-- C3: whenever `pickChunk` succeeds, the returned chunk is an unseen chunk
in range whose top offset (`chunkIndex * viewportHeight`) has minimal
absolute distance to the current scroll position, ties resolved in favor of
the lowest index; in particular with documentHeight 3000, viewportHeight
1000, chunksSeen `[0]` and scroll 0 it returns chunk 1 (and the full chunk
array `[0, 1, 2]`). -/
theorem c3_pickChunk_nearest :
    (∀ (V H scroll : Nat) (seen : List Nat) (c : Nat) (arr : List Nat),
      pickChunk V H scroll seen = .ok (c, arr) →
      c < totalChunks V H ∧ seen.contains c = false ∧
      (∀ c', c' < totalChunks V H → seen.contains c' = false →
        jsAbsSub scroll (V * c) ≤ jsAbsSub scroll (V * c') ∧
        (jsAbsSub scroll (V * c) = jsAbsSub scroll (V * c') → c ≤ c'))) ∧
    pickChunk 1000 3000 0 [0] = .ok (1, [0, 1, 2]) := by
  constructor
  · intro V H scroll seen c arr hok
    match hrem : (List.range (totalChunks V H)).filter (fun x => !(seen.contains x)) with
    | [] =>
      rw [pickChunk_remaining_nil V H scroll seen hrem] at hok
      exact absurd hok (by simp)
    | c0 :: rest =>
      rw [pickChunk_remaining_cons V H scroll seen c0 rest hrem] at hok
      have hc : c = (c0 :: rest).foldl (closerChunk V scroll) c0 := by
        have := Except.ok.inj hok
        exact (Prod.mk.injEq _ _ _ _ ▸ this).1.symm
      -- the filtered remainder is strictly sorted
      have hpw : (c0 :: rest).Pairwise (· < ·) := by
        rw [← hrem]
        exact List.Pairwise.filter _ (List.pairwise_lt_range _)
      have hccs : ∀ x ∈ rest, c0 < x := (List.pairwise_cons.mp hpw).1
      have hpw' : rest.Pairwise (· < ·) := (List.pairwise_cons.mp hpw).2
      -- the reduce scans the whole remainder, first step is a no-op
      have hfold : (c0 :: rest).foldl (closerChunk V scroll) c0
          = rest.foldl (closerChunk V scroll) c0 := by
        rw [List.foldl_cons]
        congr 1
        unfold closerChunk
        simp
      obtain ⟨hmem, _, hall, htie⟩ := foldl_closerChunk_spec V scroll rest c0 hccs hpw'
      rw [hfold] at hc
      subst hc
      set r := rest.foldl (closerChunk V scroll) c0 with hr
      have hrmem : r ∈ c0 :: rest := by
        rcases hmem with h | h
        · exact h ▸ List.mem_cons_self c0 rest
        · exact List.mem_cons_of_mem c0 h
      have hrfil : r ∈ (List.range (totalChunks V H)).filter (fun x => !(seen.contains x)) := by
        rw [hrem]; exact hrmem
      have hrprops := List.mem_filter.mp hrfil
      refine ⟨List.mem_range.mp hrprops.1, by simpa using hrprops.2, ?_⟩
      intro c' hc' hcs'
      have hc'fil : c' ∈ (List.range (totalChunks V H)).filter (fun x => !(seen.contains x)) := by
        apply List.mem_filter.mpr
        exact ⟨List.mem_range.mpr hc', by simpa using hcs'⟩
      rw [hrem] at hc'fil
      rcases List.mem_cons.mp hc'fil with rfl | hmem'
      · exact ⟨(foldl_closerChunk_spec V scroll rest c' hccs hpw').2.1,
          fun heq => htie c' (Or.inl rfl) heq⟩
      · exact ⟨hall c' hmem', fun heq => htie c' (Or.inr hmem') heq⟩
  · rfl

theorem c3_witness :
    pickChunk 1000 3000 0 [0] = .ok (1, [0, 1, 2]) ∧
      (1 < totalChunks 1000 3000 ∧ [0].contains 1 = false ∧
        (∀ c', c' < totalChunks 1000 3000 → [0].contains c' = false →
          jsAbsSub 0 (1000 * 1) ≤ jsAbsSub 0 (1000 * c') ∧
          (jsAbsSub 0 (1000 * 1) = jsAbsSub 0 (1000 * c') → 1 ≤ c'))) :=
  ⟨c3_pickChunk_nearest.2,
    c3_pickChunk_nearest.1 1000 3000 0 [0] 1 [0, 1, 2] c3_pickChunk_nearest.2⟩

/-! ## Claim theorems: output/selectorMap consistency (C1) -/

/-- Invariant of collected candidates: a text candidate has non-empty
trimmed content. -/
def candOk : DNode → Prop
  | .text s => jsTrim s ≠ ""
  | .element _ _ _ _ _ => True

mutual
theorem candOk_collect (innerHeight : Int) :
    ∀ (pstyle : Style) (prect : Rect) (n : DNode) (c : DNode),
      c ∈ collectCandidates innerHeight pstyle prect n → candOk c
  | ps, pr, .text s, c, hc => by
    unfold collectCandidates at hc
    split at hc
    · rename_i hcond
      simp only [List.mem_singleton] at hc
      subst hc
      simp only [Bool.and_eq_true, decide_eq_true_eq] at hcond
      exact hcond.1.1
    · exact absurd hc (List.not_mem_nil c)
  | ps, pr, .element t a st r ch, c, hc => by
    unfold collectCandidates at hc
    split at hc
    · exact absurd hc (List.not_mem_nil c)
    · rcases List.mem_append.mp hc with h1 | h1
      · split at h1
        · simp only [List.mem_singleton] at h1
          subst h1
          trivial
        · exact absurd h1 (List.not_mem_nil c)
      · exact candOk_collectList innerHeight st r ch c h1
theorem candOk_collectList (innerHeight : Int) :
    ∀ (pstyle : Style) (prect : Rect) (l : DNodeList) (c : DNode),
      c ∈ collectList innerHeight pstyle prect l → candOk c
  | _, _, .nil, c, hc => absurd hc (List.not_mem_nil c)
  | ps, pr, .cons n ns, c, hc => by
    rcases List.mem_append.mp (by simpa [collectList] using hc) with h1 | h1
    · exact candOk_collect innerHeight ps pr n c h1
    · exact candOk_collectList innerHeight ps pr ns c h1
end

theorem candOk_candidates (innerHeight : Int) (body : DNode) :
    ∀ c ∈ candidates innerHeight body, candOk c := by
  intro c hc
  match body with
  | .element t a st r ch => exact candOk_collectList innerHeight st r ch c hc
  | .text s => exact absurd hc (List.not_mem_nil c)

/-- The character sequence of a candidate's output line, without the
terminating newline. -/
def lineChars (i : Nat) (c : DNode) : List Char :=
  decChars i ++ ':' :: (renderContent c).data

theorem renderLine_data (i : Nat) (c : DNode) (h : candOk c) :
    (renderLine i c).data = lineChars i c ++ ['\n'] := by
  match c with
  | .text s =>
    have hs : ¬(jsTrim s = "") := h
    simp only [renderLine, if_neg hs, lineChars, renderContent]
    rw [string_data_append, string_data_append, string_data_append]
    simp [decStr, data_asString]
  | .element t a st r ch =>
    simp only [renderLine, lineChars, renderContent]
    rw [string_data_append, string_data_append, string_data_append]
    simp [decStr, data_asString]

/-- The line character sequences of a candidate list. -/
def linePieces (off : Nat) : Nat → List DNode → List (List Char)
  | _, [] => []
  | i, c :: cs => lineChars (i + off) c :: linePieces off (i + 1) cs

theorem renderLinesFrom_data (off : Nat) :
    ∀ (cs : List DNode) (i : Nat), (∀ c ∈ cs, candOk c) →
      (renderLinesFrom off i cs).map String.data
        = (linePieces off i cs).map (· ++ ['\n']) := by
  intro cs
  induction cs with
  | nil => intro i _; rfl
  | cons c rest ih =>
    intro i h
    simp only [renderLinesFrom, linePieces, List.map_cons]
    rw [renderLine_data (i + off) c (h c (List.mem_cons_self c rest)),
      ih (i + 1) (fun x hx => h x (List.mem_cons_of_mem c hx))]

theorem linePieces_noNl (off : Nat) :
    ∀ (cs : List DNode) (i : Nat), (∀ c ∈ cs, '\n' ∉ (renderContent c).data) →
      ∀ p ∈ linePieces off i cs, '\n' ∉ p := by
  intro cs
  induction cs with
  | nil => intro i _ p hp; exact absurd hp (List.not_mem_nil p)
  | cons c rest ih =>
    intro i h p hp
    rcases List.mem_cons.mp hp with rfl | hp
    · intro hmem
      unfold lineChars at hmem
      rcases List.mem_append.mp hmem with h1 | h1
      · have := decChars_all_digits (i + off) '\n' h1
        exact absurd this (by decide)
      · rcases List.mem_cons.mp h1 with h2 | h2
        · exact absurd h2 (by decide)
        · exact h c (List.mem_cons_self c rest) h2
    · exact ih (i + 1) (fun x hx => h x (List.mem_cons_of_mem c hx)) p hp

theorem linePieces_length (off : Nat) :
    ∀ (cs : List DNode) (i : Nat), (linePieces off i cs).length = cs.length := by
  intro cs
  induction cs with
  | nil => intro i; rfl
  | cons c rest ih => intro i; simp [linePieces, ih]

theorem selectorMapFrom_length (gen : DNode → List String) (off : Nat) :
    ∀ (cs : List DNode) (i : Nat), (selectorMapFrom gen off i cs).length = cs.length := by
  intro cs
  induction cs with
  | nil => intro i; rfl
  | cons c rest ih => intro i; simp [selectorMapFrom, ih]

theorem selectorMapFrom_keys (gen : DNode → List String) (off : Nat) :
    ∀ (cs : List DNode) (i k : Nat),
      (k ∈ (selectorMapFrom gen off i cs).map Prod.fst ↔
        i + off ≤ k ∧ k < i + off + cs.length) := by
  intro cs
  induction cs with
  | nil =>
    intro i k
    simp only [selectorMapFrom, List.map_nil, List.not_mem_nil, List.length_nil]
    constructor
    · intro h; exact absurd h (by simp)
    · intro h; omega
  | cons c rest ih =>
    intro i k
    simp only [selectorMapFrom, List.map_cons, List.mem_cons, List.length_cons]
    rw [ih (i + 1) k]
    constructor
    · intro h
      rcases h with rfl | h <;> omega
    · intro h
      by_cases hk : k = i + off
      · exact Or.inl hk
      · exact Or.inr (by omega)

theorem colon_not_digit : isDigitCh ':' = false := by decide

theorem digits_colon_headEq :
    ∀ (ds₁ ds₂ t : List Char), (∀ c ∈ ds₁, isDigitCh c = true) →
      (∀ c ∈ ds₂, isDigitCh c = true) →
      ((ds₁ ++ [':']).isPrefixOf (ds₂ ++ ':' :: t) = true ↔ ds₁ = ds₂) := by
  intro ds₁
  induction ds₁ with
  | nil =>
    intro ds₂ t _ h₂
    match ds₂ with
    | [] => simp [List.isPrefixOf]
    | d :: ds =>
      have hd := h₂ d (List.mem_cons_self d ds)
      have hne : (':' : Char) ≠ d := by
        intro he
        rw [← he] at hd
        exact absurd hd (by decide)
      simp [List.isPrefixOf, hne]
  | cons c cs ih =>
    intro ds₂ t h₁ h₂
    have hc := h₁ c (List.mem_cons_self c cs)
    match ds₂ with
    | [] =>
      have hne : c ≠ ':' := by
        intro he
        rw [he] at hc
        exact absurd hc (by decide)
      simp [List.isPrefixOf, hne]
    | d :: ds =>
      simp only [List.cons_append, List.isPrefixOf, Bool.and_eq_true, beq_iff_eq,
        List.append_eq]
      rw [ih ds t (fun x hx => h₁ x (List.mem_cons_of_mem c hx))
        (fun x hx => h₂ x (List.mem_cons_of_mem d hx))]
      simp [List.cons.injEq]

theorem key_isPrefixOf_lineChars (k i : Nat) (c : DNode) :
    (decChars k ++ [':']).isPrefixOf (lineChars i c) = true ↔ k = i := by
  unfold lineChars
  rw [digits_colon_headEq (decChars k) (decChars i) (renderContent c).data
    (decChars_all_digits k) (decChars_all_digits i)]
  constructor
  · exact decChars_injective
  · intro h; rw [h]

theorem key_not_prefixOf_nil (k : Nat) :
    (decChars k ++ [':']).isPrefixOf ([] : List Char) = false := by
  match h : decChars k with
  | [] => simp [List.isPrefixOf]
  | c :: cs => simp [List.isPrefixOf]

theorem countP_linePieces (off k : Nat) :
    ∀ (cs : List DNode) (i : Nat),
      (linePieces off i cs).countP (fun l => (decChars k ++ [':']).isPrefixOf l)
        = if i + off ≤ k ∧ k < i + off + cs.length then 1 else 0 := by
  intro cs
  induction cs with
  | nil =>
    intro i
    simp only [linePieces, List.countP_nil, List.length_nil]
    split
    · omega
    · rfl
  | cons c rest ih =>
    intro i
    simp only [linePieces, List.countP_cons, ih (i + 1), List.length_cons]
    by_cases hk : k = i + off
    · have hpre : (decChars k ++ [':']).isPrefixOf (lineChars (i + off) c)
          = true := (key_isPrefixOf_lineChars k (i + off) c).mpr hk
      rw [hpre]
      have h1 : ¬(i + 1 + off ≤ k ∧ k < i + 1 + off + rest.length) := by omega
      have h2 : i + off ≤ k ∧ k < i + off + (rest.length + 1) := by omega
      rw [if_neg h1, if_pos h2]
      simp
    · have hpre : (decChars k ++ [':']).isPrefixOf (lineChars (i + off) c)
          = false := by
        rcases h : (decChars k ++ [':']).isPrefixOf (lineChars (i + off) c) with _ | _
        · rfl
        · exact absurd ((key_isPrefixOf_lineChars k (i + off) c).mp h) hk
      rw [hpre]
      simp only [Bool.false_eq_true, if_false, Nat.add_zero]
      split <;> split <;> omega

theorem processElementsCore_splitNl (gen : DNode → List String) (innerHeight : Int)
    (body : DNode) (off : Nat)
    (hnl : ∀ c ∈ candidates innerHeight body, '\n' ∉ (renderContent c).data) :
    splitNl (processElementsCore gen innerHeight body off).1.data
      = linePieces off 0 (candidates innerHeight body) ++ [[]] := by
  have hok := candOk_candidates innerHeight body
  show splitNl (String.join (renderLinesFrom off 0 (candidates innerHeight body))).data = _
  rw [string_join_data, renderLinesFrom_data off (candidates innerHeight body) 0 hok,
    splitNl_join_lines _ (linePieces_noNl off (candidates innerHeight body) 0 hnl)]

/-- C1 amended: provided no candidate's rendered line content (trimmed text
for a text node; serialized tag, attributes and trimmed text for an element)
contains a newline character, the assembled `outputString` and the returned
`selectorMap` are consistent: the number of newline-terminated lines equals
the number of selectorMap keys, and every key `k` prefixes exactly one line
as `"k:"`. -/
theorem c1_output_selector_consistency (gen : DNode → List String)
    (innerHeight : Int) (body : DNode) (off : Nat)
    (hnl : ∀ c ∈ candidates innerHeight body, '\n' ∉ (renderContent c).data) :
    (splitNl (processElementsCore gen innerHeight body off).1.data).length - 1
        = (processElementsCore gen innerHeight body off).2.length ∧
      ∀ k ∈ (processElementsCore gen innerHeight body off).2.map Prod.fst,
        (splitNl (processElementsCore gen innerHeight body off).1.data).countP
            (fun l => (decChars k ++ [':']).isPrefixOf l) = 1 := by
  rw [processElementsCore_splitNl gen innerHeight body off hnl]
  constructor
  · show (linePieces off 0 (candidates innerHeight body) ++ [[]]).length - 1
        = (selectorMapFrom gen off 0 (candidates innerHeight body)).length
    rw [List.length_append, linePieces_length,
      selectorMapFrom_length gen off (candidates innerHeight body) 0]
    simp
  · intro k hk
    have hrange := (selectorMapFrom_keys gen off (candidates innerHeight body) 0 k).mp hk
    rw [List.countP_append, countP_linePieces off k (candidates innerHeight body) 0]
    have hcond : 0 + off ≤ k ∧ k < 0 + off + (candidates innerHeight body).length := hrange
    rw [if_pos hcond]
    simp [List.countP_cons, key_not_prefixOf_nil k]

/-- A body whose only candidate is a text node with an embedded newline:
`<body><div>a\nb<span></span></div></body>`. -/
def c1BadBody : DNode :=
  .element "BODY" [] sampleStyle sampleRect
    (.cons (.element "DIV" [] sampleStyle sampleRect
      (.cons (.text "a\nb")
        (.cons (.element "SPAN" [] sampleStyle sampleRect .nil) .nil))) .nil)

/-- C1 counterexample: for the document `c1BadBody` the claim's count
equation fails — the single candidate text node "a\nb" renders as one
selectorMap entry but two newline-terminated output lines, because the code
never strips embedded newlines from text content. -/
theorem c1_counterexample :
    ¬ ((splitNl (processElementsCore (fun _ => ["//x"]) 100 c1BadBody 0).1.data).length - 1
        = (processElementsCore (fun _ => ["//x"]) 100 c1BadBody 0).2.length) := by
  decide

/-- A body with one interactive element candidate and one text candidate. -/
def c1GoodBody : DNode :=
  .element "BODY" [] sampleStyle sampleRect
    (.cons (.element "BUTTON" [] sampleStyle sampleRect
      (.cons (.text "Go") .nil)) .nil)

theorem c1_witness :
    (∀ c ∈ candidates 100 c1GoodBody, '\n' ∉ (renderContent c).data) ∧
      ((splitNl (processElementsCore (fun _ => ["//x"]) 100 c1GoodBody 0).1.data).length - 1
          = (processElementsCore (fun _ => ["//x"]) 100 c1GoodBody 0).2.length ∧
        ∀ k ∈ (processElementsCore (fun _ => ["//x"]) 100 c1GoodBody 0).2.map Prod.fst,
          (splitNl (processElementsCore (fun _ => ["//x"]) 100 c1GoodBody 0).1.data).countP
              (fun l => (decChars k ++ [':']).isPrefixOf l) = 1) :=
  ⟨by decide,
    c1_output_selector_consistency (fun _ => ["//x"]) 100 c1GoodBody 0 (by decide)⟩

/-! ## Claim theorems: snapshot round-trip (C5) -/

theorem tw_append_all (p : Char → Bool) :
    ∀ (xs ys : List Char), (∀ x ∈ xs, p x = true) →
      (xs ++ ys).takeWhile p = xs ++ ys.takeWhile p := by
  intro xs
  induction xs with
  | nil => intro ys _; rfl
  | cons x xr ih =>
    intro ys h
    simp [List.cons_append, List.takeWhile_cons,
      h x (List.mem_cons_self x xr), ih ys (fun a ha => h a (List.mem_cons_of_mem x ha))]

theorem dw_append_all (p : Char → Bool) :
    ∀ (xs ys : List Char), (∀ x ∈ xs, p x = true) →
      (xs ++ ys).dropWhile p = ys.dropWhile p := by
  intro xs
  induction xs with
  | nil => intro ys _; rfl
  | cons x xr ih =>
    intro ys h
    simp only [List.cons_append, List.dropWhile_cons,
      h x (List.mem_cons_self x xr), if_pos]
    exact ih ys (fun a ha => h a (List.mem_cons_of_mem x ha))

theorem tw_cons_neg (p : Char → Bool) (y : Char) (ys : List Char) (h : p y = false) :
    (y :: ys).takeWhile p = [] := by
  simp [List.takeWhile_cons, h]

theorem dw_cons_neg (p : Char → Bool) (y : Char) (ys : List Char) (h : p y = false) :
    (y :: ys).dropWhile p = y :: ys := by
  simp [List.dropWhile_cons, h]

theorem escTextC_no_lt : ∀ cs : List Char, '<' ∉ escTextC cs := by
  intro cs
  induction cs with
  | nil => simp [escTextC]
  | cons c rest ih =>
    simp only [escTextC]
    split
    · simp [ih]
    · split
      · simp [ih]
      · split
        · simp [ih]
        · rename_i h1 h2 h3
          intro hmem
          rcases List.mem_cons.mp hmem with rfl | hm
          · exact h2 rfl
          · exact ih hm

theorem escAttrC_no_quot : ∀ cs : List Char, '"' ∉ escAttrC cs := by
  intro cs
  induction cs with
  | nil => simp [escAttrC]
  | cons c rest ih =>
    simp only [escAttrC]
    split
    · simp [ih]
    · split
      · simp [ih]
      · rename_i h1 h2
        intro hmem
        rcases List.mem_cons.mp hmem with rfl | hm
        · exact h2 rfl
        · exact ih hm

theorem unescC_cons_ne (c : Char) (rest : List Char) (h : c ≠ '&') :
    unescC (c :: rest) = c :: unescC rest := by
  rw [unescC.eq_def]
  split
  · rename_i heq
    exact List.noConfusion heq
  · rename_i heq
    injection heq with h1 h2
    exact absurd h1 h
  · rename_i heq
    injection heq with h1 h2
    exact absurd h1 h
  · rename_i heq
    injection heq with h1 h2
    exact absurd h1 h
  · rename_i heq
    injection heq with h1 h2
    exact absurd h1 h
  · rename_i heq
    injection heq with h1 h2
    subst h1
    subst h2
    rfl

theorem unesc_escText : ∀ cs : List Char, unescC (escTextC cs) = cs := by
  intro cs
  induction cs with
  | nil => rfl
  | cons c rest ih =>
    simp only [escTextC]
    split
    · rename_i h1
      subst h1
      show unescC ('&' :: 'a' :: 'm' :: 'p' :: ';' :: escTextC rest) = _
      rw [show unescC ('&' :: 'a' :: 'm' :: 'p' :: ';' :: escTextC rest)
          = '&' :: unescC (escTextC rest) from rfl, ih]
    · split
      · rename_i h1 h2
        subst h2
        rw [show unescC ('&' :: 'l' :: 't' :: ';' :: escTextC rest)
            = '<' :: unescC (escTextC rest) from rfl, ih]
      · split
        · rename_i h1 h2 h3
          subst h3
          rw [show unescC ('&' :: 'g' :: 't' :: ';' :: escTextC rest)
              = '>' :: unescC (escTextC rest) from rfl, ih]
        · rename_i h1 h2 h3
          rw [unescC_cons_ne c (escTextC rest) h1, ih]

theorem unesc_escAttr : ∀ cs : List Char, unescC (escAttrC cs) = cs := by
  intro cs
  induction cs with
  | nil => rfl
  | cons c rest ih =>
    simp only [escAttrC]
    split
    · rename_i h1
      subst h1
      rw [show unescC ('&' :: 'a' :: 'm' :: 'p' :: ';' :: escAttrC rest)
          = '&' :: unescC (escAttrC rest) from rfl, ih]
    · split
      · rename_i h1 h2
        subst h2
        rw [show unescC ('&' :: 'q' :: 'u' :: 'o' :: 't' :: ';' :: escAttrC rest)
            = '"' :: unescC (escAttrC rest) from rfl, ih]
      · rename_i h1 h2
        rw [unescC_cons_ne c (escAttrC rest) h1, ih]

/-- Well-formed tag name: non-empty, lower-case tag characters, and not the
`body` wrapper itself. -/
def tagOK (t : String) : Bool :=
  decide (t ≠ "") && decide (t ≠ "body") && t.data.all isTagChar

/-- Well-formed attribute: non-empty name of tag characters (value arbitrary). -/
def attrOK (a : String × String) : Bool :=
  decide (a.1 ≠ "") && a.1.data.all isTagChar

/-- No text node directly followed by another text node (the parser merges
adjacent character data, so such siblings cannot round-trip). -/
def sepOK : HNode → HList → Bool
  | .txt _, .cons (.txt _) _ => false
  | _, _ => true

mutual
/-- Well-formed markup node: serialization round-trips on such nodes. -/
def wfN : HNode → Bool
  | .txt s => decide (s ≠ "")
  | .elem t a cs => tagOK t && a.all attrOK && wfL cs
/-- Well-formed sibling list. -/
def wfL : HList → Bool
  | .nil => true
  | .cons n ns => wfN n && sepOK n ns && wfL ns
end

mutual
/-- Number of nodes in a markup tree. -/
def nodeCount : HNode → Nat
  | .txt _ => 1
  | .elem _ _ cs => 1 + listCount cs
/-- Number of nodes in a sibling forest. -/
def listCount : HList → Nat
  | .nil => 0
  | .cons n ns => nodeCount n + listCount ns
end

theorem escTextC_length : ∀ cs : List Char, cs.length ≤ (escTextC cs).length := by
  intro cs
  induction cs with
  | nil => simp [escTextC]
  | cons c rest ih =>
    simp only [escTextC]
    split
    · simp; omega
    · split
      · simp; omega
      · split
        · simp; omega
        · simp; omega

mutual
theorem nodeCount_le_ser : ∀ n : HNode, wfN n = true → nodeCount n ≤ (serNode n).length
  | .txt s, h => by
    have hs : s ≠ "" := by simpa [wfN] using h
    have hd : s.data ≠ [] := by
      intro hnil
      exact hs (by cases s; simp_all)
    have h1 : 1 ≤ s.data.length := by
      cases hc : s.data with
      | nil => exact absurd hc hd
      | cons a as => simp
    calc nodeCount (.txt s) = 1 := rfl
    _ ≤ s.data.length := h1
    _ ≤ (escTextC s.data).length := escTextC_length s.data
    _ = (serNode (.txt s)).length := rfl
  | .elem t a cs, h => by
    have hcs : wfL cs = true := by
      simp only [wfN, Bool.and_eq_true] at h
      exact h.2
    have := listCount_le_ser cs hcs
    show 1 + listCount cs ≤ ('<' :: t.data ++ serAttrs a ++ '>' :: serList cs
      ++ '<' :: '/' :: t.data ++ ['>']).length
    simp only [List.length_cons, List.length_append]
    omega
theorem listCount_le_ser : ∀ l : HList, wfL l = true → listCount l ≤ (serList l).length
  | .nil, _ => by simp [listCount, serList]
  | .cons n ns, h => by
    have h1 : wfN n = true ∧ wfL ns = true := by
      simp only [wfL, Bool.and_eq_true] at h
      exact ⟨h.1.1, h.2⟩
    have := nodeCount_le_ser n h1.1
    have := listCount_le_ser ns h1.2
    show nodeCount n + listCount ns ≤ (serNode n ++ serList ns).length
    simp only [List.length_append]
    omega
end

theorem isTagChar_facts :
    isTagChar '>' = false ∧ isTagChar ' ' = false ∧ isTagChar '=' = false ∧
      isTagChar '/' = false ∧ isTagChar '<' = false := by decide

theorem serAttrs_stop (attrs : List (String × String)) (t : List Char) :
    (serAttrs attrs ++ '>' :: t).takeWhile isTagChar = [] ∧
      (serAttrs attrs ++ '>' :: t).dropWhile isTagChar = serAttrs attrs ++ '>' :: t := by
  match attrs with
  | [] =>
    simp only [serAttrs, List.nil_append]
    exact ⟨tw_cons_neg _ _ _ (by decide), dw_cons_neg _ _ _ (by decide)⟩
  | (n, v) :: rest =>
    simp only [serAttrs, List.cons_append]
    exact ⟨tw_cons_neg _ _ _ (by decide), dw_cons_neg _ _ _ (by decide)⟩

theorem serAttrs_length_lt :
    ∀ (attrs : List (String × String)) (t : List Char),
      attrs.length < (serAttrs attrs ++ '>' :: t).length := by
  intro attrs
  induction attrs with
  | nil => intro t; simp [serAttrs]
  | cons a rest ih =>
    intro t
    match a with
    | (n, v) =>
      have := ih t
      simp only [serAttrs, List.cons_append, List.length_cons, List.length_append]
      simp only [List.length_append, List.length_cons] at this ⊢
      omega

theorem readAttrs_ser :
    ∀ (attrs : List (String × String)) (fuel : Nat) (t : List Char),
      attrs.length < fuel → (∀ a ∈ attrs, attrOK a = true) →
      readAttrsGo fuel (serAttrs attrs ++ '>' :: t) = (attrs, '>' :: t) := by
  intro attrs
  induction attrs with
  | nil =>
    intro fuel t hf _
    match fuel with
    | f + 1 =>
      show readAttrsGo (f + 1) ('>' :: t) = ([], '>' :: t)
      simp [readAttrsGo]
  | cons a rest ih =>
    intro fuel t hf hok
    match a, fuel with
    | (n, v), f + 1 =>
      have hnOK : attrOK (n, v) = true := hok _ (List.mem_cons_self _ _)
      have hnchars : ∀ x ∈ n.data, isTagChar x = true := by
        simp only [attrOK, Bool.and_eq_true, List.all_eq_true] at hnOK
        exact fun x hx => hnOK.2 x hx
      have hvchars : ∀ x ∈ escAttrC v.data, (fun y => !(y = '"')) x = true := by
        intro x hx
        simp only [Bool.not_eq_true', decide_eq_false_iff_not]
        intro hx2
        exact escAttrC_no_quot v.data (hx2 ▸ hx)
      simp only [serAttrs, List.cons_append, List.append_assoc]
      simp only [readAttrsGo, if_pos (rfl : (' ' : Char) = ' ')]
      rw [tw_append_all isTagChar n.data _ hnchars,
        dw_append_all isTagChar n.data _ hnchars,
        tw_cons_neg isTagChar '=' _ (by decide),
        dw_cons_neg isTagChar '=' _ (by decide), List.append_nil]
      show (let v2 := (escAttrC v.data ++ '"' :: (serAttrs rest ++ '>' :: t)).takeWhile
              (fun x => !(x = '"'))
            let r3 := (escAttrC v.data ++ '"' :: (serAttrs rest ++ '>' :: t)).dropWhile
              (fun x => !(x = '"'))
            (match r3 with
             | '"' :: r4 =>
               let res := readAttrsGo f r4
               ((n.data.asString, (unescC v2).asString) :: res.1, res.2)
             | _ => ([], r3))) = ((n, v) :: rest, '>' :: t)
      rw [tw_append_all _ (escAttrC v.data) _ hvchars,
        dw_append_all _ (escAttrC v.data) _ hvchars,
        tw_cons_neg _ '"' _ (by decide), dw_cons_neg _ '"' _ (by decide),
        List.append_nil]
      show ((n.data.asString, (unescC (escAttrC v.data)).asString)
          :: (readAttrsGo f (serAttrs rest ++ '>' :: t)).1,
        (readAttrsGo f (serAttrs rest ++ '>' :: t)).2) = ((n, v) :: rest, '>' :: t)
      rw [ih f t (by simpa using Nat.lt_of_succ_lt_succ hf)
        (fun x hx => hok x (List.mem_cons_of_mem _ hx))]
      rw [asString_data, unesc_escAttr, asString_data]

/-- Admissible stopping suffix for the fragment parser: end of input or an
end tag. -/
def stopOK (r : List Char) : Prop := r = [] ∨ ∃ u, r = '<' :: '/' :: u

theorem data_of_ne_empty {s : String} (h : s ≠ "") : ∃ d ds, s.data = d :: ds := by
  match hs : s.data with
  | [] =>
    exfalso
    apply h
    cases s
    simp_all
  | d :: ds => exact ⟨d, ds, rfl⟩

theorem escTextC_cons_head (d : Char) (ds : List Char) :
    ∃ e es, escTextC (d :: ds) = e :: es ∧ e ≠ '<' := by
  simp only [escTextC]
  split
  · exact ⟨'&', _, rfl, by decide⟩
  · split
    · exact ⟨'&', _, rfl, by decide⟩
    · split
      · exact ⟨'&', _, rfl, by decide⟩
      · rename_i h1 h2 h3
        exact ⟨d, _, rfl, h2⟩

theorem headLt_stop (l : List Char) (h : l = [] ∨ ∃ u, l = '<' :: u) :
    l.takeWhile (fun x => !(x = '<')) = [] ∧
      l.dropWhile (fun x => !(x = '<')) = l := by
  rcases h with rfl | ⟨u, rfl⟩
  · exact ⟨rfl, rfl⟩
  · exact ⟨tw_cons_neg _ _ _ (by decide), dw_cons_neg _ _ _ (by decide)⟩

theorem serList_headLt (ns : HList) (rest : List Char)
    (hsep : ns = .nil ∨ ∃ t a c tl, ns = .cons (.elem t a c) tl)
    (hstop : stopOK rest) :
    serList ns ++ rest = [] ∨ ∃ u, serList ns ++ rest = '<' :: u := by
  rcases hsep with rfl | ⟨t, a, c, tl, rfl⟩
  · rcases hstop with rfl | ⟨u, rfl⟩
    · exact Or.inl rfl
    · exact Or.inr ⟨'/' :: u, rfl⟩
  · refine Or.inr ⟨(t.data ++ serAttrs a ++ '>' :: serList c
      ++ '<' :: '/' :: t.data ++ ['>']) ++ serList tl ++ rest, ?_⟩
    simp [serList, serNode, List.cons_append, List.append_assoc]

theorem sepOK_txt (s : String) (ns : HList) (h : sepOK (.txt s) ns = true) :
    ns = .nil ∨ ∃ t a c tl, ns = .cons (.elem t a c) tl := by
  match ns with
  | .nil => exact Or.inl rfl
  | .cons (.txt _) _ => exact absurd h (by simp [sepOK])
  | .cons (.elem t a c) tl => exact Or.inr ⟨t, a, c, tl, rfl⟩

theorem dropCloseTag_ser (td X : List Char) (h : ∀ x ∈ td, isTagChar x = true) :
    dropCloseTag ('<' :: '/' :: (td ++ '>' :: X)) = X := by
  have h1 : dropCloseTag ('<' :: '/' :: (td ++ '>' :: X))
      = (match (td ++ '>' :: X).dropWhile isTagChar with
         | '>' :: r2 => r2
         | _ => '<' :: '/' :: (td ++ '>' :: X)) := rfl
  rw [h1, dw_append_all isTagChar td _ h, dw_cons_neg isTagChar '>' X (by decide)]
  rfl

theorem isTagChar_ne_slash {g : Char} (h : isTagChar g = true) : g ≠ '/' := by
  intro he
  rw [he] at h
  exact absurd h (by decide)

theorem parse_serList :
    ∀ (fuel : Nat) (ns : HList) (rest : List Char),
      listCount ns < fuel → wfL ns = true → stopOK rest →
      parseNodesGo fuel (serList ns ++ rest) = (ns, rest) := by
  intro fuel
  induction fuel using Nat.strong_induction_on with
  | _ fuel ih =>
    intro ns rest hcount hwf hstop
    match fuel, ns with
    | 0, ns =>
      exact absurd hcount (by omega)
    | f + 1, .nil =>
      show parseNodesGo (f + 1) ([] ++ rest) = (.nil, rest)
      rw [List.nil_append]
      rcases hstop with rfl | ⟨u, rfl⟩
      · rfl
      · simp [parseNodesGo]
    | f + 1, .cons (.txt s) ns' =>
      have hwf1 : wfN (.txt s) = true ∧ sepOK (.txt s) ns' = true ∧ wfL ns' = true := by
        simp only [wfL, Bool.and_eq_true] at hwf
        exact ⟨hwf.1.1, hwf.1.2, hwf.2⟩
      have hs : s ≠ "" := by simpa [wfN] using hwf1.1
      obtain ⟨d, ds, hd⟩ := data_of_ne_empty hs
      obtain ⟨e, es, hesc, hene⟩ := escTextC_cons_head d ds
      have hhead := serList_headLt ns' rest (sepOK_txt s ns' hwf1.2.1) hstop
      have htw := headLt_stop (serList ns' ++ rest) hhead
      have hnolt : ∀ x ∈ escTextC s.data, (fun y => !(y = '<')) x = true := by
        intro x hx
        simp only [Bool.not_eq_true', decide_eq_false_iff_not]
        intro he
        exact escTextC_no_lt s.data (he ▸ hx)
      have hcount' : listCount ns' < f := by
        simp only [listCount, nodeCount] at hcount
        omega
      have hin : serList (.cons (.txt s) ns') ++ rest
          = escTextC s.data ++ (serList ns' ++ rest) := by
        simp [serList, serNode, List.append_assoc]
      rw [hin]
      have hcons : escTextC s.data ++ (serList ns' ++ rest)
          = e :: (es ++ (serList ns' ++ rest)) := by
        rw [hd, hesc, List.cons_append]
      rw [hcons]
      simp only [parseNodesGo]
      rw [if_neg hene, ← List.cons_append, ← hesc, ← hd,
        tw_append_all _ _ _ hnolt, htw.1, List.append_nil,
        dw_append_all _ _ _ hnolt, htw.2,
        ih f (Nat.lt_succ_self f) ns' rest hcount' hwf1.2.2 hstop,
        unesc_escText, asString_data]
    | f + 1, .cons (.elem tag attrs cs) ns' =>
      have hwf1 : wfN (.elem tag attrs cs) = true ∧ wfL ns' = true := by
        simp only [wfL, Bool.and_eq_true] at hwf
        exact ⟨hwf.1.1, hwf.2⟩
      have htag : tagOK tag = true ∧ attrs.all attrOK = true ∧ wfL cs = true := by
        simp only [wfN, Bool.and_eq_true] at hwf1
        exact ⟨hwf1.1.1.1, hwf1.1.1.2, hwf1.1.2⟩
      have htagne : tag ≠ "" := by
        have := htag.1
        simp only [tagOK, Bool.and_eq_true, decide_eq_true_eq] at this
        exact this.1.1
      have htagchars : ∀ x ∈ tag.data, isTagChar x = true := by
        have := htag.1
        simp only [tagOK, Bool.and_eq_true, List.all_eq_true] at this
        exact this.2
      have hattrs : ∀ a ∈ attrs, attrOK a = true := by
        have := htag.2.1
        simp only [List.all_eq_true] at this
        exact fun a ha => this a ha
      obtain ⟨g, gs, hg⟩ := data_of_ne_empty htagne
      have hgtag : isTagChar g = true := htagchars g (by rw [hg]; exact List.mem_cons_self g gs)
      have hgslash : g ≠ '/' := isTagChar_ne_slash hgtag
      have hcountcs : listCount cs < f := by
        simp only [listCount, nodeCount] at hcount
        omega
      have hcountns : listCount ns' < f := by
        simp only [listCount, nodeCount] at hcount
        omega
      have hin : serList (.cons (.elem tag attrs cs) ns') ++ rest
          = '<' :: (tag.data ++ (serAttrs attrs ++ '>' :: (serList cs
              ++ '<' :: '/' :: (tag.data ++ '>' :: (serList ns' ++ rest))))) := by
        simp [serList, serNode, List.cons_append, List.append_assoc]
      rw [hin]
      simp only [parseNodesGo, if_true]
      have hhd : (tag.data ++ (serAttrs attrs ++ '>' :: (serList cs
          ++ '<' :: '/' :: (tag.data ++ '>' :: (serList ns' ++ rest))))).head?
            ≠ some '/' := by
        rw [hg, List.cons_append]
        simp [hgslash]
      rw [if_neg hhd]
      rw [tw_append_all isTagChar tag.data _ htagchars,
        (serAttrs_stop attrs _).1, List.append_nil, asString_data,
        dw_append_all isTagChar tag.data _ htagchars,
        (serAttrs_stop attrs _).2,
        readAttrs_ser attrs _ _ (serAttrs_length_lt attrs _) hattrs]
      show (let cres := parseNodesGo f (serList cs
              ++ '<' :: '/' :: (tag.data ++ '>' :: (serList ns' ++ rest)))
            let r5 := dropCloseTag cres.2
            let sres := parseNodesGo f r5
            (HList.cons (.elem tag attrs cres.1) sres.1, sres.2))
          = (HList.cons (.elem tag attrs cs) ns', rest)
      rw [ih f (Nat.lt_succ_self f) cs _ hcountcs htag.2.2
        (Or.inr ⟨tag.data ++ '>' :: (serList ns' ++ rest), rfl⟩)]
      show (let r5 := dropCloseTag ('<' :: '/' :: (tag.data ++ '>' :: (serList ns' ++ rest)))
            let sres := parseNodesGo f r5
            (HList.cons (.elem tag attrs cs) sres.1, sres.2))
          = (HList.cons (.elem tag attrs cs) ns', rest)
      rw [dropCloseTag_ser tag.data _ htagchars]
      show (HList.cons (HNode.elem tag attrs cs)
            (parseNodesGo f (serList ns' ++ rest)).1,
          (parseNodesGo f (serList ns' ++ rest)).2)
        = (HList.cons (HNode.elem tag attrs cs) ns', rest)
      rw [ih f (Nat.lt_succ_self f) ns' rest hcountns hwf1.2 hstop]

theorem body_data_tagChars : ∀ x ∈ "body".data, isTagChar x = true := by decide

theorem parseFragment_body (attrs : List (String × String)) (children : HList)
    (hattrs : ∀ a ∈ attrs, attrOK a = true) (hwf : wfL children = true) :
    parseFragment ((serNode (.elem "body" attrs children)).asString) = children := by
  have hdata : (serNode (.elem "body" attrs children)).asString.data
      = '<' :: ("body".data ++ (serAttrs attrs ++ '>' :: (serList children
          ++ '<' :: '/' :: ("body".data ++ ['>'])))) := by
    rw [data_asString]
    simp [serNode, List.cons_append, List.append_assoc]
  have hcount : listCount children
      < (serList children ++ '<' :: '/' :: ("body".data ++ ['>'])).length := by
    have := listCount_le_ser children hwf
    simp only [List.length_append, List.length_cons]
    omega
  unfold parseFragment
  simp only [hdata]
  rw [tw_append_all isTagChar "body".data _ body_data_tagChars,
    (serAttrs_stop attrs _).1, List.append_nil,
    if_pos (show ("body".data).asString = "body" from rfl),
    dw_append_all isTagChar "body".data _ body_data_tagChars,
    (serAttrs_stop attrs _).2,
    readAttrs_ser attrs _ _ (serAttrs_length_lt attrs _) hattrs]
  show (parseNodesGo (serList children ++ '<' :: '/' :: ("body".data ++ ['>'])).length
      (serList children ++ '<' :: '/' :: ("body".data ++ ['>']))).1 = children
  rw [parse_serList _ children _ hcount hwf (Or.inr ⟨"body".data ++ ['>'], rfl⟩)]

/-- C5: snapshot round-trip.  For every page whose body content is
well-formed markup (non-empty lower-case tag names other than `body`,
well-formed attribute names, no empty and no adjacent text-node siblings —
the shape of any tree the HTML parser itself builds), `restoreDOM` applied
to the string previously returned by `storeDOM` restores the body content
verbatim: the body's children and attributes equal those at capture time. -/
theorem c5_snapshot_roundtrip (st : PageState)
    (hwf : wfL st.bodyChildren = true)
    (hattrs : ∀ a ∈ st.bodyAttrs, attrOK a = true) :
    (restoreDOM (storeDOM st) st).bodyChildren = st.bodyChildren ∧
      (restoreDOM (storeDOM st) st).bodyAttrs = st.bodyAttrs := by
  have hstore : storeDOM st
      = (serNode (.elem "body" st.bodyAttrs st.bodyChildren)).asString := by
    show (serNode (cloneN (.elem "body" st.bodyAttrs st.bodyChildren))).asString = _
    rw [cloneN_eq]
  have hne : storeDOM st ≠ "" := by
    intro he
    have hd := congrArg String.data he
    rw [hstore, data_asString] at hd
    rw [show ("" : String).data = [] from rfl] at hd
    have : serNode (.elem "body" st.bodyAttrs st.bodyChildren)
        = '<' :: ("body".data ++ serAttrs st.bodyAttrs
          ++ '>' :: serList st.bodyChildren ++ '<' :: '/' :: "body".data ++ ['>']) := by
      simp [serNode, List.cons_append, List.append_assoc]
    rw [this] at hd
    exact List.noConfusion hd
  constructor
  · show (if storeDOM st ≠ "" then
        { st with bodyChildren := parseFragment (storeDOM st) }
      else st).bodyChildren = st.bodyChildren
    rw [if_pos hne, hstore]
    exact parseFragment_body st.bodyAttrs st.bodyChildren hattrs hwf
  · show (if storeDOM st ≠ "" then
        { st with bodyChildren := parseFragment (storeDOM st) }
      else st).bodyAttrs = st.bodyAttrs
    split <;> rfl

/-- A concrete well-formed page: `<body class="x"><div id="a">hi &
<there></div>more</body>` with a cached locator entry. -/
def c5State : PageState :=
  { bodyAttrs := [("class", "x")]
    bodyChildren :=
      .cons (.elem "div" [("id", "a & \"b\"")]
        (.cons (.txt "hi & <there>") .nil))
        (.cons (.elem "p" [] (.cons (.txt "more") .nil)) .nil)
    xpathCache := [(3, ["/html/body[1]"])] }

theorem c5_witness :
    (wfL c5State.bodyChildren = true ∧
        ∀ a ∈ c5State.bodyAttrs, attrOK a = true) ∧
      (restoreDOM (storeDOM c5State) c5State).bodyChildren
          = c5State.bodyChildren ∧
        (restoreDOM (storeDOM c5State) c5State).bodyAttrs = c5State.bodyAttrs :=
  ⟨⟨by decide, by decide⟩,
    c5_snapshot_roundtrip c5State (by decide) (by decide)⟩
